import Mathlib

/-!
Shallow embedding of the hierarchical light-sampling kernel of
`intern/cycles/kernel/kernel_path_surface.h`: the split estimator (`split`),
the recursive light-tree traversal (`accum_light_tree_contribution`), the
direct light connection (`accum_light_contribution`) and the two surface
bounce functions.  Machine floats are modelled as real numbers; external
collaborators (light sampler, BSDF evaluator, visibility oracle) are
parameters or, where a claim depends on repository code that is not part of
the excerpt, definitions modelled from the specification (marked as such).
-/

namespace Cycles

/-- A 3-vector of reals, embedding `float3`. -/
structure V3 where
  x : ℝ
  y : ℝ
  z : ℝ

instance : Add V3 := ⟨fun a b => ⟨a.x + b.x, a.y + b.y, a.z + b.z⟩⟩

instance : Sub V3 := ⟨fun a b => ⟨a.x - b.x, a.y - b.y, a.z - b.z⟩⟩

instance : Neg V3 := ⟨fun a => ⟨-a.x, -a.y, -a.z⟩⟩

instance : SMul ℝ V3 := ⟨fun c a => ⟨c * a.x, c * a.y, c * a.z⟩⟩

/-- `len_squared(d) = dot(d, d)`. -/
def lenSq (a : V3) : ℝ := a.x * a.x + a.y * a.y + a.z * a.z

/-- The per-node data of the flattened light BVH read by `split`
(lines 60-63 and 91-95 of `kernel_path_surface.h`): bounding-box corners,
aggregate energy (`node0[0]`), energy variance (`node3[3]`) and emitter count
(`__float_as_int(node0[3])`, cast to double, hence a real here). -/
structure LightNode where
  bboxMin : V3
  bboxMax : V3
  energy : ℝ
  e_variance : ℝ
  num_emitters : ℝ

/-- `centroid = 0.5f * (bboxMax + bboxMin)` (line 66). -/
noncomputable def nodeCentroid (n : LightNode) : V3 := (1 / 2 : ℝ) • (n.bboxMax + n.bboxMin)

/-- `radius_squared = len_squared(bboxMax - centroid)` (line 67). -/
noncomputable def nodeRadiusSq (n : LightNode) : ℝ := lenSq (n.bboxMax - nodeCentroid n)

/-- `dist_squared = len_squared(centroid - P)` (line 68). -/
noncomputable def distSq (P₀ : V3) (n : LightNode) : ℝ := lenSq (nodeCentroid n - P₀)

/-- `g_mean = 1.0 / (a * b)` with `a = dist - radius`, `b = dist + radius`
(lines 78-83). -/
noncomputable def gMean (P₀ : V3) (n : LightNode) : ℝ :=
  1 / ((Real.sqrt (distSq P₀ n) - Real.sqrt (nodeRadiusSq n)) *
       (Real.sqrt (distSq P₀ n) + Real.sqrt (nodeRadiusSq n)))

/-- `g_variance = (b3 - a3) / (3 * (b - a) * a3 * b3) - g_mean_squared`
(lines 84-88). -/
noncomputable def gVariance (P₀ : V3) (n : LightNode) : ℝ :=
  (let a := Real.sqrt (distSq P₀ n) - Real.sqrt (nodeRadiusSq n)
   let b := Real.sqrt (distSq P₀ n) + Real.sqrt (nodeRadiusSq n)
   (b * b * b - a * a * a) / (3 * (b - a) * (a * a * a) * (b * b * b))) -
  gMean P₀ n * gMean P₀ n

/-- `variance = (e_variance * (g_variance + g_mean_squared) +
e_mean_squared * g_variance) * num_emitters_squared` with
`e_mean = energy / num_emitters` (lines 97-101). -/
noncomputable def nodeVariance (P₀ : V3) (n : LightNode) : ℝ :=
  (n.e_variance * (gVariance P₀ n + gMean P₀ n * gMean P₀ n) +
    (n.energy / n.num_emitters) * (n.energy / n.num_emitters) * gVariance P₀ n) *
  (n.num_emitters * n.num_emitters)

/-- `variance_normalized = sqrt(sqrt(1.0 / (1.0 + sqrt(variance))))`
(line 115). -/
noncomputable def splitScore (P₀ : V3) (n : LightNode) : ℝ :=
  Real.sqrt (Real.sqrt (1 / (1 + Real.sqrt (nodeVariance P₀ n))))

/-- The split decision, `split(kg, P, node_offset)` (lines 49-118): early
exits for threshold 0 and 1, force-split inside the bounding sphere,
otherwise compare the normalized variance score against the threshold. -/
noncomputable def split (threshold : ℝ) (P₀ : V3) (n : LightNode) : Bool :=
  if threshold = 0 then false
  else if threshold = 1 then true
  else if distSq P₀ n ≤ nodeRadiusSq n then true
  else decide (splitScore P₀ n < threshold)

/-- Scaling every emitter energy by `c` scales the cluster aggregates:
`energy` by `c` and `e_variance` by `c^2` (the claim C6 scaling). -/
def scaleEnergy (c : ℝ) (n : LightNode) : LightNode :=
  ⟨n.bboxMin, n.bboxMax, c * n.energy, c ^ 2 * n.e_variance, n.num_emitters⟩

/-- The light BVH seen by one traversal, abstracting the flattened node array
of `accum_light_tree_contribution`: a leaf stores its `distribution_id`
(single-emitter leaves, `num_emitters == 1` — the multi-emitter case is an
explicit TODO in the source and contributes nothing); an interior node stores
the payload read by `split` together with the two child importances
`calc_node_importance(kg, P, N, child_offset{L,R})` (an external collaborator,
tabulated per node since `P`, `N` are fixed during one traversal). -/
inductive LTree where
  | leaf (distribution_id : ℕ)
  | node (data : LightNode) (I_L I_R : ℝ) (l r : LTree)

/-- The arguments of one leaf visit of the traversal: which emitter was
reached, with which rescaled random pair and which accumulated `pdf_factor`. -/
structure Visit where
  distribution_id : ℕ
  randu : ℝ
  randv : ℝ
  pdf_factor : ℝ

/-- The stochastic child choice of `accum_light_tree_contribution`
(lines 186-209): `P_L = I_L / (I_L + I_R)`; on `randu <= P_L` go left with
rescaled `randu / P_L` and scale factor `P_L`, otherwise go right with
rescaled `(randu * (I_L + I_R) - I_L) / I_R` and scale factor `1 - P_L`.
Returns (went-left, rescaled random number, pdf scale factor). -/
noncomputable def stochasticStep (randu I_L I_R : ℝ) : Bool × ℝ × ℝ :=
  let P_L := I_L / (I_L + I_R)
  if randu ≤ P_L then (true, randu / P_L, P_L)
  else (false, (randu * (I_L + I_R) - I_L) / I_R, 1 - P_L)

/-- The traversal skeleton of `accum_light_tree_contribution` (lines 121-216):
the list of leaf visits, in left-to-right order.  A leaf is visited with the
current random pair and `pdf_factor` (lines 141-168); an interior node either
splits into both children when `can_split && split(...)` (lines 175-182),
aborts when both child importances are zero (lines 190-193), or descends
stochastically into one child with `can_split = false` (lines 195-213).
The debug counters `num_lights` / `num_lights_fail` are advisory only and
are not modelled. -/
noncomputable def visits (threshold : ℝ) (P₀ : V3) :
    LTree → ℝ → ℝ → ℝ → Bool → List Visit
  | .leaf i, randu, randv, pdf_factor, _ => [⟨i, randu, randv, pdf_factor⟩]
  | .node d I_L I_R l r, randu, randv, pdf_factor, can_split =>
      if can_split && split threshold P₀ d then
        visits threshold P₀ l randu randv pdf_factor true ++
          visits threshold P₀ r randu randv pdf_factor true
      else if I_L = 0 ∧ I_R = 0 then []
      else
        let step := stochasticStep randu I_L I_R
        if step.1 then
          visits threshold P₀ l step.2.1 randv (pdf_factor * step.2.2) false
        else
          visits threshold P₀ r step.2.1 randv (pdf_factor * step.2.2) false

/-- One recorded invocation of `accum_light_contribution` by the traversal:
the emitter and the combined pdf `ls.pdf * pdf_factor` it was given. -/
structure Contribution where
  distribution_id : ℕ
  pdf : ℝ

/-- The single-emitter leaf body of `accum_light_tree_contribution`
(lines 143-165): sample a point on the leaf's emitter
(`light_point_sample`, external; `samplePdf` gives the returned `ls.pdf` as a
function of the distribution id and the random pair), combine the pdfs
(`ls.pdf *= pdf_factor`), and drop the branch when the combined pdf is
exactly zero; otherwise `accum_light_contribution` is invoked once. -/
noncomputable def leafContrib (samplePdf : ℕ → ℝ → ℝ → ℝ) (w : Visit) :
    Option Contribution :=
  let pdf := samplePdf w.distribution_id w.randu w.randv * w.pdf_factor
  if pdf = 0 then none else some ⟨w.distribution_id, pdf⟩

/-- `accum_light_tree_contribution` (lines 121-216): the traversal composed
with the leaf body, yielding the sequence of `accum_light_contribution`
invocations it performs. -/
noncomputable def accum_light_tree_contribution (samplePdf : ℕ → ℝ → ℝ → ℝ)
    (threshold : ℝ) (P₀ : V3) (t : LTree) (randu randv pdf_factor : ℝ)
    (can_split : Bool) : List Contribution :=
  (visits threshold P₀ t randu randv pdf_factor can_split).filterMap
    (leafContrib samplePdf)

/-- The emitters held by the leaves of a tree, in traversal order. -/
def leaves : LTree → List ℕ
  | .leaf i => [i]
  | .node _ _ _ l r => leaves l ++ leaves r

/-- The analytic marginal probability of the non-split stochastic traversal
reaching the leaf holding emitter `i`: the product of the branch
probabilities `P_L` / `1 - P_L` along the path to `i` (written as a sum over
children; with distinct leaf emitters at most one summand is nonzero). -/
noncomputable def leafProb : LTree → ℕ → ℝ
  | .leaf j, i => if j = i then 1 else 0
  | .node _ I_L I_R l r, i =>
      I_L / (I_L + I_R) * leafProb l i +
        (1 - I_L / (I_L + I_R)) * leafProb r i

/-- Every interior node of the tree has strictly positive child importances
(the non-degenerate stochastic traversal). -/
def posImportances : LTree → Prop
  | .leaf _ => True
  | .node _ I_L I_R l r => 0 < I_L ∧ 0 < I_R ∧ posImportances l ∧ posImportances r

/-- The random draw `u` reaches the leaf holding emitter `i`: the traversal
with splitting threshold 0 (never split), started with `pdf_factor = 1` and
`can_split = true` as at the call site (line 259), visits exactly that leaf. -/
def hits (P₀ : V3) (t : LTree) (i : ℕ) (randv u : ℝ) : Prop :=
  ∃ u' p, visits 0 P₀ t u randv 1 true = [⟨i, u', randv, p⟩]

/-- Rescale the pdf factor of a visit, for relating traversals started with
different `pdf_factor` arguments. -/
def scaleVisit (c : ℝ) (w : Visit) : Visit :=
  ⟨w.distribution_id, w.randu, w.randv, c * w.pdf_factor⟩

/-- The per-path radiance accumulator, reduced to the two channels the claims
are about.  Modelled from the spec: the record summing weighted contributions,
"separated by semantic channel"; `visible` is the final visible-radiance
channel and `totalLight` the separate diagnostic/denoising "total light"
(unshadowed) channel. -/
structure PathRadiance where
  visible : ℝ
  totalLight : ℝ

/-- Modelled from the spec: `path_radiance_accum_light` (not in the excerpt)
accumulates `throughput * scale * (BSDF-eval) * transmittance / pdf` into the
visible-radiance channel; its arguments here are the combined throughput
passed at line 40, the `L_light` value (BSDF-eval over pdf) computed by
`direct_emission`, and the transmittance of the unoccluded shadow ray. -/
def path_radiance_accum_light (L : PathRadiance) (tp_scale L_light shadow : ℝ) :
    PathRadiance :=
  { L with visible := L.visible + tp_scale * L_light * shadow }

/-- Modelled from the spec: `path_radiance_accum_total_light` (not in the
excerpt) records the unshadowed estimate `throughput * scale * (BSDF-eval) /
pdf` into the diagnostic total-light channel only. -/
def path_radiance_accum_total_light (L : PathRadiance) (tp_scale L_light : ℝ) :
    PathRadiance :=
  { L with totalLight := L.totalLight + tp_scale * L_light }

/-- `accum_light_contribution` (lines 21-46): when `direct_emission` reports a
usable sample (modelled as `some L_light`, with `L_light` the BSDF-eval over
pdf it computes; `none` when degenerate), trace the shadow ray (`some
transmittance` when unoccluded, `none` when blocked) and accumulate into the
appropriate channel with combined weight `throughput * scale`. -/
def accum_light_contribution (directEmission : Option ℝ) (shadow : Option ℝ)
    (throughput scale : ℝ) (L : PathRadiance) : PathRadiance :=
  match directEmission with
  | none => L
  | some L_light =>
    match shadow with
    | some transmittance =>
        path_radiance_accum_light L (throughput * scale) L_light transmittance
    | none => path_radiance_accum_total_light L (throughput * scale) L_light

/-- The ray-sampling label returned by `shader_bsdf_sample`, reduced to the
two bits the excerpt branches on. -/
structure BounceLabel where
  transparent : Bool
  transmit : Bool

/-- The result of sampling the BSDF (`shader_bsdf_sample` /
`shader_bsdf_sample_closure`, external): label, evaluated BSDF (a scalar
standing for `bsdf_eval`; `0` models `bsdf_eval_is_zero`), pdf and sampled
direction. -/
structure BsdfSample where
  label : BounceLabel
  eval : ℝ
  pdf : ℝ
  omega_in : V3

/-- The path state fields mutated by the bounce functions in the excerpt. -/
structure PathState where
  ray_pdf : ℝ
  min_ray_pdf : ℝ
  ray_t : ℝ
  bounce : ℕ

/-- A ray, as set up by the bounce functions. -/
structure Ray where
  P : V3
  D : V3
  t : ℝ

/-- The largest finite single-precision float, `FLT_MAX = 2^128 - 2^104`. -/
noncomputable def FLT_MAX : ℝ := 2 ^ 128 - 2 ^ 104

/-- Modelled from the spec: `path_radiance_bsdf_bounce` (not in the excerpt)
updates the throughput by `BSDF-eval / pdf`. -/
noncomputable def path_radiance_bsdf_bounce (throughput eval pdf : ℝ) : ℝ :=
  throughput * eval / pdf

/-- Modelled from the spec: `path_state_next` (not in the excerpt) advances
the bounce count and leaves the MIS pdf bookkeeping fields alone. -/
def path_state_next (st : PathState) : PathState :=
  { st with bounce := st.bounce + 1 }

/-- Modelled from the spec: `ray_offset` (not in the excerpt) offsets the new
ray origin along the given signed geometric normal to avoid
self-intersection; the offset magnitude is abstracted. -/
def ray_offset (P N : V3) : V3 := P + N

/-- `kernel_path_surface_bounce` (lines 485-571), restricted to the surface
(`SD_BSDF`) branch; the compile-time optional `__VOLUME__` branch is omitted
(without it the function returns false leaving everything unchanged, line
569).  Sampling (`shader_bsdf_sample`) is external and passed in as `s`; the
rng read does not mutate the modelled state.  Returns the `bool` result
together with the updated throughput, path state and ray (unchanged when the
function returns false). -/
noncomputable def kernel_path_surface_bounce (hasBsdf : Bool) (s : BsdfSample)
    (sd_P sd_Ng : V3) (ray_length throughput : ℝ) (st : PathState) (ray : Ray) :
    Bool × ℝ × PathState × Ray :=
  if hasBsdf then
    if s.pdf = 0 ∨ s.eval = 0 then (false, throughput, st, ray)
    else
      let throughput' := path_radiance_bsdf_bounce throughput s.eval s.pdf
      let st1 :=
        if s.label.transparent then st
        else { st with ray_pdf := s.pdf, ray_t := 0,
                       min_ray_pdf := min s.pdf st.min_ray_pdf }
      let st2 := path_state_next st1
      let ray' : Ray :=
        { P := ray_offset sd_P (if s.label.transmit then -sd_Ng else sd_Ng)
          D := s.omega_in
          t := if st2.bounce = 0 then ray.t - ray_length else FLT_MAX }
      (true, throughput', st2, ray')
  else (false, throughput, st, ray)

/-- `kernel_branched_path_surface_bounce` (lines 369-435): same degenerate
check, then throughput update, `path_state_next`, ray setup with `t =
FLT_MAX`, and the MIS state reset `min_ray_pdf = fminf(bsdf_pdf, FLT_MAX)`,
`ray_pdf = bsdf_pdf`, `ray_t = 0` (lines 427-432).  The denoising weight and
the rng re-branching (`path_state_branch`) touch only fields outside the
modelled state. -/
noncomputable def kernel_branched_path_surface_bounce (s : BsdfSample)
    (sd_P sd_Ng : V3) (throughput : ℝ) (st : PathState) (ray : Ray) :
    Bool × ℝ × PathState × Ray :=
  if s.pdf = 0 ∨ s.eval = 0 then (false, throughput, st, ray)
  else
    let throughput' := path_radiance_bsdf_bounce throughput s.eval s.pdf
    let st1 := path_state_next st
    let ray' : Ray :=
      { P := ray_offset sd_P (if s.label.transmit then -sd_Ng else sd_Ng)
        D := s.omega_in
        t := FLT_MAX }
    let st2 :=
      { st1 with min_ray_pdf := min s.pdf FLT_MAX, ray_pdf := s.pdf,
                 ray_t := 0 }
    (true, throughput', st2, ray')

/-- Concrete shading point at the origin, for witnesses. -/
def ptOrigin : V3 := ⟨0, 0, 0⟩

/-- Concrete interior-node payload with bounding box `[0,2]^3`, for
witnesses. -/
def nodeA : LightNode := ⟨⟨0, 0, 0⟩, ⟨2, 2, 2⟩, 1, 1, 1⟩

/-- The two-leaf tree of the end-to-end scenario of claim C2: leaf emitter 0
with importance 3, leaf emitter 1 with importance 1. -/
def tree31 : LTree := .node nodeA 3 1 (.leaf 0) (.leaf 1)

@[simp] theorem V3.add_x (a b : V3) : (a + b).x = a.x + b.x := rfl

@[simp] theorem V3.add_y (a b : V3) : (a + b).y = a.y + b.y := rfl

@[simp] theorem V3.add_z (a b : V3) : (a + b).z = a.z + b.z := rfl

@[simp] theorem V3.sub_x (a b : V3) : (a - b).x = a.x - b.x := rfl

@[simp] theorem V3.sub_y (a b : V3) : (a - b).y = a.y - b.y := rfl

@[simp] theorem V3.sub_z (a b : V3) : (a - b).z = a.z - b.z := rfl

@[simp] theorem V3.smul_x (c : ℝ) (a : V3) : (c • a).x = c * a.x := rfl

@[simp] theorem V3.smul_y (c : ℝ) (a : V3) : (c • a).y = c * a.y := rfl

@[simp] theorem V3.smul_z (c : ℝ) (a : V3) : (c • a).z = c * a.z := rfl

theorem split_zero (P₀ : V3) (n : LightNode) : split 0 P₀ n = false := by
  simp [split]

/-- Claim C4: the configured splitting threshold short-circuits the split
decision: threshold 0 never splits, threshold 1 always splits, for every
shading point and node. -/
theorem split_threshold_shortcircuit (threshold : ℝ) (P₀ : V3) (n : LightNode) :
    (threshold = 0 → split threshold P₀ n = false) ∧
    (threshold = 1 → split threshold P₀ n = true) := by
  constructor
  · rintro rfl; simp [split]
  · rintro rfl; simp [split]

/-- Witness for C4 at a concrete node and shading point. -/
theorem split_threshold_shortcircuit_witness :
    ((0 : ℝ) = 0 ∧ split 0 ptOrigin nodeA = false) ∧
    ((1 : ℝ) = 1 ∧ split 1 ptOrigin nodeA = true) :=
  ⟨⟨rfl, (split_threshold_shortcircuit 0 ptOrigin nodeA).1 rfl⟩,
   ⟨rfl, (split_threshold_shortcircuit 1 ptOrigin nodeA).2 rfl⟩⟩

/-- Claim C5: for a threshold strictly between 0 and 1, a shading point
strictly inside the node's bounding sphere (center = bbox midpoint, radius
squared = squared distance from the center to the bbox max corner) forces a
split, regardless of the threshold. -/
theorem split_inside_sphere (threshold : ℝ) (P₀ : V3) (n : LightNode)
    (h0 : 0 < threshold) (h1 : threshold < 1)
    (hin : distSq P₀ n < nodeRadiusSq n) : split threshold P₀ n = true := by
  unfold split
  rw [if_neg (ne_of_gt h0), if_neg (ne_of_lt h1), if_pos (le_of_lt hin)]

/-- Witness for C5: threshold 1/2 and the shading point at the centroid of
`nodeA`. -/
theorem split_inside_sphere_witness :
    ((0 : ℝ) < 1 / 2 ∧ (1 / 2 : ℝ) < 1 ∧
      distSq ⟨1, 1, 1⟩ nodeA < nodeRadiusSq nodeA) ∧
    split (1 / 2) ⟨1, 1, 1⟩ nodeA = true :=
  ⟨⟨by norm_num, by norm_num,
    by norm_num [distSq, nodeRadiusSq, nodeCentroid, lenSq, nodeA]⟩,
   split_inside_sphere (1 / 2) ⟨1, 1, 1⟩ nodeA (by norm_num) (by norm_num)
     (by norm_num [distSq, nodeRadiusSq, nodeCentroid, lenSq, nodeA])⟩

theorem gVariance_scaleEnergy (P₀ : V3) (n : LightNode) (c : ℝ) :
    gVariance P₀ (scaleEnergy c n) = gVariance P₀ n := rfl

theorem gMean_scaleEnergy (P₀ : V3) (n : LightNode) (c : ℝ) :
    gMean P₀ (scaleEnergy c n) = gMean P₀ n := rfl

theorem nodeVariance_scaleEnergy (P₀ : V3) (n : LightNode) (c : ℝ) :
    nodeVariance P₀ (scaleEnergy c n) = c ^ 2 * nodeVariance P₀ n := by
  unfold nodeVariance
  rw [gVariance_scaleEnergy, gMean_scaleEnergy]
  simp only [scaleEnergy]
  ring

theorem sqrt_nodeVariance_scaleEnergy (P₀ : V3) (n : LightNode) {c : ℝ}
    (hc : 0 ≤ c) :
    Real.sqrt (nodeVariance P₀ (scaleEnergy c n)) =
      c * Real.sqrt (nodeVariance P₀ n) := by
  rw [nodeVariance_scaleEnergy, Real.sqrt_mul (sq_nonneg c), Real.sqrt_sq hc]

/-- Claim C6: with the shading point outside the node's bounding sphere,
scaling all emitter energies by a positive constant `c` (energy scaled by
`c`, energy variance by `c^2`) moves the normalized split score
`(1 / (1 + sqrt(variance)))^(1/4)` monotonically (non-increasingly) in `c`,
and the score always stays within `[0, 1]` — in particular it is never
negative, and every intermediate quantity is a well-defined real (the
embedding's rendering of "never NaN"). -/
theorem splitScore_scale_monotone (P₀ : V3) (n : LightNode) (c₁ c₂ : ℝ)
    (hout : nodeRadiusSq n < distSq P₀ n) (h1 : 0 < c₁) (h12 : c₁ ≤ c₂) :
    splitScore P₀ (scaleEnergy c₂ n) ≤ splitScore P₀ (scaleEnergy c₁ n) ∧
    ∀ c : ℝ, 0 < c →
      0 ≤ splitScore P₀ (scaleEnergy c n) ∧ splitScore P₀ (scaleEnergy c n) ≤ 1 := by
  have hs : 0 ≤ Real.sqrt (nodeVariance P₀ n) := Real.sqrt_nonneg _
  constructor
  · unfold splitScore
    rw [sqrt_nodeVariance_scaleEnergy P₀ n h1.le,
        sqrt_nodeVariance_scaleEnergy P₀ n (h1.trans_le h12).le]
    have hd1 : 0 < 1 + c₁ * Real.sqrt (nodeVariance P₀ n) := by positivity
    have hle : 1 + c₁ * Real.sqrt (nodeVariance P₀ n) ≤
        1 + c₂ * Real.sqrt (nodeVariance P₀ n) := by
      have := mul_le_mul_of_nonneg_right h12 hs
      linarith
    exact Real.sqrt_le_sqrt (Real.sqrt_le_sqrt
      (one_div_le_one_div_of_le hd1 hle))
  · intro c hc
    refine ⟨Real.sqrt_nonneg _, ?_⟩
    unfold splitScore
    rw [sqrt_nodeVariance_scaleEnergy P₀ n hc.le]
    have hd : 0 < 1 + c * Real.sqrt (nodeVariance P₀ n) := by positivity
    have hle1 : 1 / (1 + c * Real.sqrt (nodeVariance P₀ n)) ≤ 1 := by
      rw [div_le_one hd]
      have : 0 ≤ c * Real.sqrt (nodeVariance P₀ n) := by positivity
      linarith
    have h₁ : Real.sqrt (1 / (1 + c * Real.sqrt (nodeVariance P₀ n))) ≤ 1 := by
      have := Real.sqrt_le_sqrt hle1
      simpa [Real.sqrt_one] using this
    have := Real.sqrt_le_sqrt h₁
    simpa [Real.sqrt_one] using this

/-- Witness for C6: `nodeA` viewed from a far-away point, scales 1 and 2. -/
theorem splitScore_scale_monotone_witness :
    (nodeRadiusSq nodeA < distSq ⟨10, 0, 0⟩ nodeA ∧ (0 : ℝ) < 1 ∧ (1 : ℝ) ≤ 2) ∧
    (splitScore ⟨10, 0, 0⟩ (scaleEnergy 2 nodeA) ≤
        splitScore ⟨10, 0, 0⟩ (scaleEnergy 1 nodeA) ∧
      ∀ c : ℝ, 0 < c →
        0 ≤ splitScore ⟨10, 0, 0⟩ (scaleEnergy c nodeA) ∧
          splitScore ⟨10, 0, 0⟩ (scaleEnergy c nodeA) ≤ 1) :=
  ⟨⟨by norm_num [distSq, nodeRadiusSq, nodeCentroid, lenSq, nodeA], by norm_num,
    by norm_num⟩,
   splitScore_scale_monotone ⟨10, 0, 0⟩ nodeA 1 2
     (by norm_num [distSq, nodeRadiusSq, nodeCentroid, lenSq, nodeA])
     (by norm_num) (by norm_num)⟩

/-- Claim C8: occlusion dual accounting of `accum_light_contribution`.  When
the shadow ray is occluded the visible-radiance channel is unchanged while
the diagnostic total-light channel increases by `throughput * scale *
L_light` (with `L_light` the BSDF-eval over pdf computed by
`direct_emission`); when it is unoccluded with transmittance `T` the
visible channel increases by `throughput * scale * L_light * T`. -/
theorem accum_light_contribution_occlusion (L_light T throughput scale : ℝ)
    (L : PathRadiance) :
    ((accum_light_contribution (some L_light) none throughput scale L).visible =
        L.visible ∧
      (accum_light_contribution (some L_light) none throughput scale L).totalLight =
        L.totalLight + throughput * scale * L_light) ∧
    (accum_light_contribution (some L_light) (some T) throughput scale L).visible =
      L.visible + throughput * scale * L_light * T := by
  refine ⟨⟨rfl, ?_⟩, ?_⟩ <;>
    simp [accum_light_contribution, path_radiance_accum_light,
      path_radiance_accum_total_light, mul_assoc]

/-- Claim C7: when the traversal reaches a single-emitter leaf and the
sampler's pdf multiplied by the accumulated `pdf_factor` is exactly zero, the
branch is aborted: `accum_light_contribution` is never invoked, so the
radiance accumulator is untouched and no error is raised. -/
theorem leaf_zero_pdf_no_contribution (samplePdf : ℕ → ℝ → ℝ → ℝ)
    (threshold : ℝ) (P₀ : V3) (i : ℕ) (randu randv pdf_factor : ℝ)
    (can_split : Bool)
    (h : samplePdf i randu randv * pdf_factor = 0) :
    accum_light_tree_contribution samplePdf threshold P₀ (.leaf i) randu randv
      pdf_factor can_split = [] := by
  simp [accum_light_tree_contribution, visits, leafContrib, h]

/-- Witness for C7: a sampler that returns pdf 0. -/
theorem leaf_zero_pdf_no_contribution_witness :
    (fun (_ : ℕ) (_ _ : ℝ) => (0 : ℝ)) 0 (1 / 2) (1 / 2) * 1 = 0 ∧
    accum_light_tree_contribution (fun _ _ _ => 0) 0 ptOrigin (.leaf 0)
      (1 / 2) (1 / 2) 1 true = [] :=
  ⟨by norm_num,
   leaf_zero_pdf_no_contribution (fun _ _ _ => 0) 0 ptOrigin 0 (1 / 2) (1 / 2)
     1 true (by norm_num)⟩

/-- Claim C10: when the sampled BSDF pdf is zero or the evaluated BSDF is
identically zero, both bounce functions return `false` leaving the
throughput, the path state and the output ray entirely unchanged. -/
theorem bounce_degenerate_unchanged (hasBsdf : Bool) (s : BsdfSample)
    (sd_P sd_Ng : V3) (ray_length throughput : ℝ) (st : PathState) (ray : Ray)
    (h : s.pdf = 0 ∨ s.eval = 0) :
    kernel_path_surface_bounce hasBsdf s sd_P sd_Ng ray_length throughput st ray =
      (false, throughput, st, ray) ∧
    kernel_branched_path_surface_bounce s sd_P sd_Ng throughput st ray =
      (false, throughput, st, ray) := by
  constructor
  · cases hasBsdf <;> simp [kernel_path_surface_bounce, h]
  · simp [kernel_branched_path_surface_bounce, h]

/-- Witness for C10: a degenerate sample with pdf 0. -/
theorem bounce_degenerate_unchanged_witness :
    ((⟨⟨false, false⟩, 1, 0, ptOrigin⟩ : BsdfSample).pdf = 0 ∨
      (⟨⟨false, false⟩, 1, 0, ptOrigin⟩ : BsdfSample).eval = 0) ∧
    (kernel_path_surface_bounce true ⟨⟨false, false⟩, 1, 0, ptOrigin⟩ ptOrigin
        ptOrigin 1 1 ⟨1, 1, 1, 0⟩ ⟨ptOrigin, ptOrigin, 1⟩ =
      (false, 1, ⟨1, 1, 1, 0⟩, ⟨ptOrigin, ptOrigin, 1⟩) ∧
    kernel_branched_path_surface_bounce ⟨⟨false, false⟩, 1, 0, ptOrigin⟩
        ptOrigin ptOrigin 1 ⟨1, 1, 1, 0⟩ ⟨ptOrigin, ptOrigin, 1⟩ =
      (false, 1, ⟨1, 1, 1, 0⟩, ⟨ptOrigin, ptOrigin, 1⟩)) :=
  ⟨Or.inl rfl,
   bounce_degenerate_unchanged true ⟨⟨false, false⟩, 1, 0, ptOrigin⟩ ptOrigin
     ptOrigin 1 1 ⟨1, 1, 1, 0⟩ ⟨ptOrigin, ptOrigin, 1⟩ (Or.inl rfl)⟩

theorem stochasticStep_of_le {randu I_L I_R : ℝ}
    (h : randu ≤ I_L / (I_L + I_R)) :
    stochasticStep randu I_L I_R =
      (true, randu / (I_L / (I_L + I_R)), I_L / (I_L + I_R)) := by
  simp [stochasticStep, h]

theorem stochasticStep_of_not_le {randu I_L I_R : ℝ}
    (h : ¬ randu ≤ I_L / (I_L + I_R)) :
    stochasticStep randu I_L I_R =
      (false, (randu * (I_L + I_R) - I_L) / I_R, 1 - I_L / (I_L + I_R)) := by
  simp [stochasticStep, h]

/-- Unfolding of the traversal at an interior node that does not split. -/
theorem visits_node_stochastic {threshold : ℝ} {P₀ : V3} {d : LightNode}
    {I_L I_R : ℝ} {l r : LTree} {randu randv pdf_factor : ℝ} {can_split : Bool}
    (hsp : (can_split && split threshold P₀ d) = false)
    (hI : ¬ (I_L = 0 ∧ I_R = 0)) :
    visits threshold P₀ (.node d I_L I_R l r) randu randv pdf_factor can_split =
      if randu ≤ I_L / (I_L + I_R) then
        visits threshold P₀ l (randu / (I_L / (I_L + I_R))) randv
          (pdf_factor * (I_L / (I_L + I_R))) false
      else
        visits threshold P₀ r ((randu * (I_L + I_R) - I_L) / I_R) randv
          (pdf_factor * (1 - I_L / (I_L + I_R))) false := by
  rw [visits, hsp]
  simp only [Bool.false_eq_true, if_false, if_neg hI]
  by_cases h : randu ≤ I_L / (I_L + I_R)
  · rw [stochasticStep_of_le h]
    simp [h]
  · rw [stochasticStep_of_not_le h]
    simp [h]

/-- Claim C2: the stochastic child choice and rescaling.  At an interior node
that is not being split and whose child importances are not both zero, the
traversal computes `P_L = I_L / (I_L + I_R)`; if `u <= P_L` it descends left
with `u' = u / P_L` and pdf scale multiplied by `P_L`, otherwise it descends
right with `u' = (u * (I_L + I_R) - I_L) / I_R` and scale multiplied by
`1 - P_L`, in both cases with `can_split = false`.  In particular, on the
two-leaf tree with importances 3 and 1 and threshold 0, `u = 0.1` reaches
leaf 0 with `u' = 0.1 / 0.75` and pdf factor `0.75`, and `u = 0.9` reaches
leaf 1 with `u' = 0.6` and pdf factor `0.25`. -/
theorem stochastic_child_choice :
    (∀ (threshold : ℝ) (P₀ : V3) (d : LightNode) (I_L I_R : ℝ) (l r : LTree)
      (randu randv pdf_factor : ℝ) (can_split : Bool),
      (can_split && split threshold P₀ d) = false → ¬ (I_L = 0 ∧ I_R = 0) →
      (randu ≤ I_L / (I_L + I_R) →
        visits threshold P₀ (.node d I_L I_R l r) randu randv pdf_factor
            can_split =
          visits threshold P₀ l (randu / (I_L / (I_L + I_R))) randv
            (pdf_factor * (I_L / (I_L + I_R))) false) ∧
      (¬ randu ≤ I_L / (I_L + I_R) →
        visits threshold P₀ (.node d I_L I_R l r) randu randv pdf_factor
            can_split =
          visits threshold P₀ r ((randu * (I_L + I_R) - I_L) / I_R) randv
            (pdf_factor * (1 - I_L / (I_L + I_R))) false)) ∧
    visits 0 ptOrigin tree31 0.1 0 1 true = [⟨0, 0.1 / 0.75, 0, 0.75⟩] ∧
    visits 0 ptOrigin tree31 0.9 0 1 true = [⟨1, 0.6, 0, 0.25⟩] := by
  refine ⟨?_, ?_, ?_⟩
  · intro threshold P₀ d I_L I_R l r randu randv pdf_factor can_split hsp hI
    constructor
    · intro h; rw [visits_node_stochastic hsp hI, if_pos h]
    · intro h; rw [visits_node_stochastic hsp hI, if_neg h]
  · rw [show tree31 = .node nodeA 3 1 (.leaf 0) (.leaf 1) from rfl,
      visits_node_stochastic (by simp [split_zero]) (by norm_num),
      if_pos (by norm_num)]
    simp only [visits]
    norm_num
  · rw [show tree31 = .node nodeA 3 1 (.leaf 0) (.leaf 1) from rfl,
      visits_node_stochastic (by simp [split_zero]) (by norm_num),
      if_neg (by norm_num)]
    simp only [visits]
    norm_num

/-- Witness for C2: the general branch applied on `tree31` with `u = 1/4`. -/
theorem stochastic_child_choice_witness :
    ((true && split 0 ptOrigin nodeA) = false ∧ ¬ ((3 : ℝ) = 0 ∧ (1 : ℝ) = 0) ∧
      (1 / 4 : ℝ) ≤ 3 / (3 + 1)) ∧
    visits 0 ptOrigin (.node nodeA 3 1 (.leaf 0) (.leaf 1)) (1 / 4) 0 1 true =
      visits 0 ptOrigin (.leaf 0) ((1 / 4) / (3 / (3 + 1))) 0 (1 * (3 / (3 + 1)))
        false :=
  ⟨⟨by simp [split_zero], by norm_num, by norm_num⟩,
   (stochastic_child_choice.1 0 ptOrigin nodeA 3 1 (.leaf 0) (.leaf 1) (1 / 4) 0
       1 true (by simp [split_zero]) (by norm_num)).1 (by norm_num)⟩

/-- Claim C3 counterexample: with `u = 1/2` in `[0,1)` and non-negative
importances `I_L = I_R = 1` (not both zero), the left branch is taken and the
rescaled random number equals exactly 1, which is not in `[0,1)` — the claim
as stated is false. -/
theorem rescale_unit_counterexample :
    (0 : ℝ) ≤ 1 / 2 ∧ (1 / 2 : ℝ) < 1 ∧ (0 : ℝ) ≤ 1 ∧
      ¬ ((1 : ℝ) = 0 ∧ (1 : ℝ) = 0) ∧
      (stochasticStep (1 / 2) 1 1).2.1 = 1 ∧
      (stochasticStep (1 / 2) 1 1).2.1 ∉ Set.Ico (0 : ℝ) 1 := by
  have h : stochasticStep (1 / 2 : ℝ) 1 1 = (true, 1, 1 / 2) := by
    rw [stochasticStep_of_le (by norm_num)]
    norm_num
  refine ⟨by norm_num, by norm_num, by norm_num, by norm_num, by rw [h], ?_⟩
  rw [h]
  simp

/-- Claim C3 (amended): for every `u` in `[0,1)` and non-negative importances
not both zero, the rescaled random number lies in the closed interval
`[0,1]`; the right branch stays below 1, but the left branch attains exactly
1 when `u = P_L`, so the half-open interval of the original claim must be
closed on the right. -/
theorem rescale_mem_unit_interval (randu I_L I_R : ℝ) (hu0 : 0 ≤ randu)
    (hu1 : randu < 1) (hL : 0 ≤ I_L) (hR : 0 ≤ I_R)
    (hne : ¬ (I_L = 0 ∧ I_R = 0)) :
    (stochasticStep randu I_L I_R).2.1 ∈ Set.Icc (0 : ℝ) 1 := by
  have hs : 0 < I_L + I_R := by
    rcases hL.lt_or_eq with h | h
    · linarith
    · rcases hR.lt_or_eq with h' | h'
      · linarith
      · exact absurd ⟨h.symm, h'.symm⟩ hne
  by_cases h : randu ≤ I_L / (I_L + I_R)
  · rw [stochasticStep_of_le h]
    by_cases hIL : I_L = 0
    · have hu : randu = 0 := le_antisymm (by simpa [hIL] using h) hu0
      simp [hu, hIL]
    · have hPL : 0 < I_L / (I_L + I_R) := div_pos (hL.lt_of_ne (Ne.symm hIL)) hs
      exact ⟨div_nonneg hu0 hPL.le, (div_le_one hPL).2 h⟩
  · rw [stochasticStep_of_not_le h]
    have hIR : 0 < I_R := by
      rcases hR.lt_or_eq with h' | h'
      · exact h'
      · exfalso
        have hIL : I_L ≠ 0 := fun hIL => hne ⟨hIL, h'.symm⟩
        have : I_L / (I_L + I_R) = 1 := by
          rw [← h', add_zero, div_self hIL]
        exact h (this ▸ hu1.le)
    have hlt : I_L / (I_L + I_R) < randu := lt_of_not_le h
    have hnum : 0 ≤ randu * (I_L + I_R) - I_L := by
      have := (div_lt_iff hs).1 hlt
      linarith
    refine ⟨div_nonneg hnum hIR.le, (div_le_one hIR).2 ?_⟩
    have : randu * (I_L + I_R) < 1 * (I_L + I_R) :=
      mul_lt_mul_of_pos_right hu1 hs
    linarith

/-- Witness for the amended C3: `u = 1/4`, importances 1 and 1. -/
theorem rescale_mem_unit_interval_witness :
    ((0 : ℝ) ≤ 1 / 4 ∧ (1 / 4 : ℝ) < 1 ∧ (0 : ℝ) ≤ 1 ∧ (0 : ℝ) ≤ 1 ∧
      ¬ ((1 : ℝ) = 0 ∧ (1 : ℝ) = 0)) ∧
    (stochasticStep (1 / 4) 1 1).2.1 ∈ Set.Icc (0 : ℝ) 1 :=
  ⟨⟨by norm_num, by norm_num, by norm_num, by norm_num, by norm_num⟩,
   rescale_mem_unit_interval (1 / 4) 1 1 (by norm_num) (by norm_num)
     (by norm_num) (by norm_num) (by norm_num)⟩

/-- Claim C9 counterexample: the branched bounce does not take the minimum
with the previous `min_ray_pdf`.  With previous `min_ray_pdf = 1` and sampled
pdf 2, the branched variant stores `fminf(2, FLT_MAX) = 2`, not
`min 2 1 = 1`; and the non-branched variant leaves `ray_pdf` untouched on a
transparent label (previous 5 stays 5, not the sampled 2). -/
theorem bounce_mis_counterexample :
    ((kernel_branched_path_surface_bounce ⟨⟨false, false⟩, 1, 2, ptOrigin⟩
          ptOrigin ptOrigin 1 ⟨5, 1, 7, 0⟩ ⟨ptOrigin, ptOrigin, 1⟩).2.2.1.min_ray_pdf = 2 ∧
      min (2 : ℝ) (⟨5, 1, 7, 0⟩ : PathState).min_ray_pdf = 1 ∧ (2 : ℝ) ≠ 1) ∧
    ((kernel_path_surface_bounce true ⟨⟨true, false⟩, 1, 2, ptOrigin⟩ ptOrigin
          ptOrigin 1 1 ⟨5, 1, 7, 0⟩ ⟨ptOrigin, ptOrigin, 1⟩).2.2.1.ray_pdf = 5 ∧
      (5 : ℝ) ≠ 2) := by
  have hmax : (2 : ℝ) ≤ FLT_MAX := by norm_num [FLT_MAX]
  refine ⟨⟨?_, ?_, by norm_num⟩, ?_, by norm_num⟩
  · rw [kernel_branched_path_surface_bounce, if_neg (by norm_num)]
    simp [path_state_next, min_eq_left hmax]
  · simp [min_eq_right (by norm_num : (1 : ℝ) ≤ 2)]
  · rw [kernel_path_surface_bounce]
    simp [path_state_next]

/-- Claim C9 (amended): after a successful bounce the non-branched variant,
for non-transparent labels, stores the sampled BSDF pdf in `ray_pdf` and the
minimum of the sampled pdf and the previous value in `min_ray_pdf` (and
leaves both untouched for transparent labels), while the branched variant
unconditionally stores the sampled pdf in `ray_pdf` and resets `min_ray_pdf`
to `fminf(bsdf_pdf, FLT_MAX)`, independent of its previous value. -/
theorem bounce_mis_pdf_update (s : BsdfSample) (sd_P sd_Ng : V3)
    (ray_length throughput : ℝ) (st : PathState) (ray : Ray)
    (hpdf : s.pdf ≠ 0) (heval : s.eval ≠ 0) :
    ((kernel_branched_path_surface_bounce s sd_P sd_Ng throughput st
          ray).2.2.1.ray_pdf = s.pdf ∧
      (kernel_branched_path_surface_bounce s sd_P sd_Ng throughput st
          ray).2.2.1.min_ray_pdf = min s.pdf FLT_MAX) ∧
    (s.label.transparent = false →
      (kernel_path_surface_bounce true s sd_P sd_Ng ray_length throughput st
          ray).2.2.1.ray_pdf = s.pdf ∧
      (kernel_path_surface_bounce true s sd_P sd_Ng ray_length throughput st
          ray).2.2.1.min_ray_pdf = min s.pdf st.min_ray_pdf) ∧
    (s.label.transparent = true →
      (kernel_path_surface_bounce true s sd_P sd_Ng ray_length throughput st
          ray).2.2.1.ray_pdf = st.ray_pdf ∧
      (kernel_path_surface_bounce true s sd_P sd_Ng ray_length throughput st
          ray).2.2.1.min_ray_pdf = st.min_ray_pdf) := by
  have hcond : ¬ (s.pdf = 0 ∨ s.eval = 0) := by
    rintro (h | h) <;> [exact hpdf h; exact heval h]
  refine ⟨?_, ?_, ?_⟩
  · rw [kernel_branched_path_surface_bounce, if_neg hcond]
    exact ⟨rfl, rfl⟩
  · intro ht
    rw [kernel_path_surface_bounce]
    simp [hcond, ht, path_state_next]
  · intro ht
    rw [kernel_path_surface_bounce]
    simp [hcond, ht, path_state_next]

/-- Witness for the amended C9: a non-transparent reflection sample with
pdf 2 over a state whose previous minimum is 1. -/
theorem bounce_mis_pdf_update_witness :
    ((2 : ℝ) ≠ 0 ∧ (1 : ℝ) ≠ 0) ∧
    (((kernel_branched_path_surface_bounce ⟨⟨false, false⟩, 1, 2, ptOrigin⟩
          ptOrigin ptOrigin 1 ⟨5, 1, 7, 0⟩ ⟨ptOrigin, ptOrigin, 1⟩).2.2.1.ray_pdf = 2 ∧
      (kernel_branched_path_surface_bounce ⟨⟨false, false⟩, 1, 2, ptOrigin⟩
          ptOrigin ptOrigin 1 ⟨5, 1, 7, 0⟩ ⟨ptOrigin, ptOrigin, 1⟩).2.2.1.min_ray_pdf =
        min 2 FLT_MAX) ∧
    ((⟨⟨false, false⟩, 1, 2, ptOrigin⟩ : BsdfSample).label.transparent = false →
      (kernel_path_surface_bounce true ⟨⟨false, false⟩, 1, 2, ptOrigin⟩ ptOrigin
          ptOrigin 1 1 ⟨5, 1, 7, 0⟩ ⟨ptOrigin, ptOrigin, 1⟩).2.2.1.ray_pdf = 2 ∧
      (kernel_path_surface_bounce true ⟨⟨false, false⟩, 1, 2, ptOrigin⟩ ptOrigin
          ptOrigin 1 1 ⟨5, 1, 7, 0⟩ ⟨ptOrigin, ptOrigin, 1⟩).2.2.1.min_ray_pdf =
        min 2 (⟨5, 1, 7, 0⟩ : PathState).min_ray_pdf) ∧
    ((⟨⟨false, false⟩, 1, 2, ptOrigin⟩ : BsdfSample).label.transparent = true →
      (kernel_path_surface_bounce true ⟨⟨false, false⟩, 1, 2, ptOrigin⟩ ptOrigin
          ptOrigin 1 1 ⟨5, 1, 7, 0⟩ ⟨ptOrigin, ptOrigin, 1⟩).2.2.1.ray_pdf =
        (⟨5, 1, 7, 0⟩ : PathState).ray_pdf ∧
      (kernel_path_surface_bounce true ⟨⟨false, false⟩, 1, 2, ptOrigin⟩ ptOrigin
          ptOrigin 1 1 ⟨5, 1, 7, 0⟩ ⟨ptOrigin, ptOrigin, 1⟩).2.2.1.min_ray_pdf =
        (⟨5, 1, 7, 0⟩ : PathState).min_ray_pdf)) :=
  ⟨⟨by norm_num, by norm_num⟩,
   bounce_mis_pdf_update ⟨⟨false, false⟩, 1, 2, ptOrigin⟩ ptOrigin ptOrigin 1 1
     ⟨5, 1, 7, 0⟩ ⟨ptOrigin, ptOrigin, 1⟩ (by norm_num) (by norm_num)⟩

/-- With splitting threshold 0 the `can_split` flag is irrelevant: `split`
always answers false. -/
theorem visits_zero_can_split (P₀ : V3) (t : LTree) (u v pf : ℝ) (b : Bool) :
    visits 0 P₀ t u v pf b = visits 0 P₀ t u v pf false := by
  cases t with
  | leaf i => rfl
  | node d IL IR l r =>
    simp only [visits, split_zero, Bool.and_false]

/-- The traversal is linear in its `pdf_factor` argument. -/
theorem visits_mul_pdf_factor (threshold : ℝ) (P₀ : V3) (t : LTree) :
    ∀ (u v c pf : ℝ) (b : Bool),
      visits threshold P₀ t u v (c * pf) b =
        (visits threshold P₀ t u v pf b).map (scaleVisit c) := by
  induction t with
  | leaf i => intro u v c pf b; simp [visits, scaleVisit]
  | node d IL IR l r ihl ihr =>
    intro u v c pf b
    by_cases hsp : (b && split threshold P₀ d) = true
    · simp only [visits, hsp, if_true, List.map_append, ihl, ihr]
    · have hb : (b && split threshold P₀ d) = false := by
        revert hsp; cases (b && split threshold P₀ d) <;> simp
      simp only [visits, hb, Bool.false_eq_true, if_false]
      by_cases hI : IL = 0 ∧ IR = 0
      · simp [hI]
      · simp only [if_neg hI]
        by_cases hstep : (stochasticStep u IL IR).1
        · simp only [hstep, if_true, mul_assoc, ihl]
        · simp only [hstep, Bool.false_eq_true, if_false, mul_assoc, ihr]

/-- Every visit produced by the traversal belongs to a leaf of the tree. -/
theorem mem_visits_leaves (threshold : ℝ) (P₀ : V3) (t : LTree) :
    ∀ (u v pf : ℝ) (b : Bool) (w : Visit),
      w ∈ visits threshold P₀ t u v pf b → w.distribution_id ∈ leaves t := by
  induction t with
  | leaf i =>
    intro u v pf b w hw
    simp only [visits, List.mem_singleton] at hw
    simp [hw, leaves]
  | node d IL IR l r ihl ihr =>
    intro u v pf b w hw
    rw [visits] at hw
    simp only [leaves, List.mem_append]
    split_ifs at hw with h1 h2
    · rcases List.mem_append.1 hw with h | h
      · exact Or.inl (ihl _ _ _ _ _ h)
      · exact Or.inr (ihr _ _ _ _ _ h)
    · exact absurd hw (List.not_mem_nil w)
    · by_cases hstep : (stochasticStep u IL IR).1
      · rw [if_pos hstep] at hw
        exact Or.inl (ihl _ _ _ _ _ hw)
      · rw [if_neg hstep] at hw
        exact Or.inr (ihr _ _ _ _ _ hw)

/-- A leaf emitter absent from the tree has marginal probability zero. -/
theorem leafProb_of_not_mem {t : LTree} {i : ℕ} (h : i ∉ leaves t) :
    leafProb t i = 0 := by
  induction t with
  | leaf j =>
    have hji : j ≠ i := by rintro rfl; exact h (by simp [leaves])
    simp [leafProb, hji]
  | node d IL IR l r ihl ihr =>
    have hl : i ∉ leaves l := fun hm => h (by simp [leaves, hm])
    have hr : i ∉ leaves r := fun hm => h (by simp [leaves, hm])
    simp [leafProb, ihl hl, ihr hr]

theorem map_eq_singleton_iff {α β : Type*} (f : α → β) (l : List α) (x : β) :
    l.map f = [x] ↔ ∃ y, l = [y] ∧ f y = x := by
  cases l with
  | nil => simp
  | cons a t => cases t with
    | nil => simp [eq_comm]
    | cons b t' => simp

/-- Reaching a leaf is independent of the `pdf_factor` the traversal was
started with (threshold 0). -/
theorem exists_visit_iff_hits (P₀ : V3) (t : LTree) (i : ℕ) (u v pf : ℝ) :
    (∃ u' p, visits 0 P₀ t u v pf false = [⟨i, u', v, p⟩]) ↔
      hits P₀ t i v u := by
  rw [hits, visits_zero_can_split P₀ t u v 1 true,
    show pf = pf * 1 from (mul_one pf).symm, visits_mul_pdf_factor]
  constructor
  · rintro ⟨u', p, h⟩
    rcases (map_eq_singleton_iff _ _ _).1 h with ⟨y, hy, hsc⟩
    cases y with
    | mk yid yu yv ypf =>
      simp only [scaleVisit, Visit.mk.injEq] at hsc
      obtain ⟨rfl, -, rfl, -⟩ := hsc
      exact ⟨yu, ypf, hy⟩
  · rintro ⟨u', p, h⟩
    exact ⟨u', pf * p, by rw [h]; rfl⟩

/-- Reaching a leaf of the tree forces its emitter to be a leaf emitter. -/
theorem hits_mem_leaves {P₀ : V3} {t : LTree} {i : ℕ} {v u : ℝ}
    (h : hits P₀ t i v u) : i ∈ leaves t := by
  rcases h with ⟨u', p, h⟩
  have := mem_visits_leaves 0 P₀ t u v 1 true ⟨i, u', v, p⟩
    (by rw [h]; exact List.mem_singleton_self _)
  simpa using this

/-- Decomposition of leaf-reaching at an interior node that never splits
(threshold 0). -/
theorem hits_node_iff (P₀ : V3) (d : LightNode) {I_L I_R : ℝ} (l r : LTree)
    (i : ℕ) (v : ℝ) (hI : ¬ (I_L = 0 ∧ I_R = 0)) (u : ℝ) :
    hits P₀ (.node d I_L I_R l r) i v u ↔
      (u ≤ I_L / (I_L + I_R) ∧ hits P₀ l i v (u / (I_L / (I_L + I_R)))) ∨
      (¬ u ≤ I_L / (I_L + I_R) ∧
        hits P₀ r i v ((u * (I_L + I_R) - I_L) / I_R)) := by
  have hsp : (true && split 0 P₀ d) = false := by simp [split_zero]
  rw [show hits P₀ (.node d I_L I_R l r) i v u =
      ∃ u' p, visits 0 P₀ (.node d I_L I_R l r) u v 1 true = [⟨i, u', v, p⟩]
    from rfl]
  rw [visits_node_stochastic hsp hI]
  by_cases h : u ≤ I_L / (I_L + I_R)
  · simp only [if_pos h, exists_visit_iff_hits]
    simp [h]
  · simp only [if_neg h, exists_visit_iff_hits]
    simp [h]

/-- In a non-split traversal over a tree with positive importances and
distinct leaf emitters, the `pdf_factor` delivered to the leaf holding
emitter `i` is exactly the product of branch probabilities to `i`. -/
theorem visits_pdf_value (P₀ : V3) (t : LTree) :
    posImportances t → (leaves t).Nodup →
    ∀ (i : ℕ) (u v u' v' p : ℝ),
      visits 0 P₀ t u v 1 true = [⟨i, u', v', p⟩] → p = leafProb t i := by
  induction t with
  | leaf j =>
    intro _ _ i u v u' v' p h
    simp only [visits, List.cons.injEq, Visit.mk.injEq, and_true] at h
    obtain ⟨rfl, -, -, hp⟩ := h
    simp [leafProb, ← hp]
  | node d IL IR l r ihl ihr =>
    intro hpos hnd i u v u' v' p h
    obtain ⟨hIL, hIR, hpl, hpr⟩ := hpos
    rw [leaves, List.nodup_append] at hnd
    obtain ⟨hndl, hndr, hdisj⟩ := hnd
    have hI : ¬ (IL = 0 ∧ IR = 0) := fun hc => absurd hc.1 hIL.ne'
    rw [visits_node_stochastic (by simp [split_zero]) hI] at h
    by_cases hu : u ≤ IL / (IL + IR)
    · rw [if_pos hu, show (1 : ℝ) * (IL / (IL + IR)) = (IL / (IL + IR)) * 1
        from by ring, visits_mul_pdf_factor] at h
      rcases (map_eq_singleton_iff _ _ _).1 h with ⟨y, hy, hsc⟩
      rw [← visits_zero_can_split P₀ l _ v 1 true] at hy
      cases y with
      | mk yid yu yv ypf =>
        simp only [scaleVisit, Visit.mk.injEq] at hsc
        obtain ⟨hid, -, -, hp⟩ := hsc
        have hpf := ihl hpl hndl yid _ v yu yv ypf hy
        have hmem : yid ∈ leaves l := by
          have := mem_visits_leaves 0 P₀ l _ v 1 true ⟨yid, yu, yv, ypf⟩
            (by rw [hy]; exact List.mem_singleton_self _)
          simpa using this
        have hnr : yid ∉ leaves r := fun hm => hdisj hmem hm
        rw [← hid]
        simp only [leafProb, leafProb_of_not_mem hnr]
        rw [← hp, hpf]
        ring
    · rw [if_neg hu, show (1 : ℝ) * (1 - IL / (IL + IR)) =
        (1 - IL / (IL + IR)) * 1 from by ring, visits_mul_pdf_factor] at h
      rcases (map_eq_singleton_iff _ _ _).1 h with ⟨y, hy, hsc⟩
      rw [← visits_zero_can_split P₀ r _ v 1 true] at hy
      cases y with
      | mk yid yu yv ypf =>
        simp only [scaleVisit, Visit.mk.injEq] at hsc
        obtain ⟨hid, -, -, hp⟩ := hsc
        have hpf := ihr hpr hndr yid _ v yu yv ypf hy
        have hmem : yid ∈ leaves r := by
          have := mem_visits_leaves 0 P₀ r _ v 1 true ⟨yid, yu, yv, ypf⟩
            (by rw [hy]; exact List.mem_singleton_self _)
          simpa using this
        have hnl : yid ∉ leaves l := fun hm => hdisj hm hmem
        rw [← hid]
        simp only [leafProb, leafProb_of_not_mem hnl]
        rw [← hp, hpf]
        ring

theorem le_g_iff {I_L I_R : ℝ} (hs : 0 < I_L + I_R) (hIR : 0 < I_R)
    (c u : ℝ) :
    c ≤ (u * (I_L + I_R) - I_L) / I_R ↔ (c * I_R + I_L) / (I_L + I_R) ≤ u := by
  rw [le_div_iff hIR, div_le_iff hs]
  constructor <;> intro <;> linarith

theorem lt_g_iff {I_L I_R : ℝ} (hs : 0 < I_L + I_R) (hIR : 0 < I_R)
    (c u : ℝ) :
    c < (u * (I_L + I_R) - I_L) / I_R ↔ (c * I_R + I_L) / (I_L + I_R) < u := by
  rw [lt_div_iff hIR, div_lt_iff hs]
  constructor <;> intro <;> linarith

theorem g_le_iff {I_L I_R : ℝ} (hs : 0 < I_L + I_R) (hIR : 0 < I_R)
    (c u : ℝ) :
    (u * (I_L + I_R) - I_L) / I_R ≤ c ↔ u ≤ (c * I_R + I_L) / (I_L + I_R) := by
  rw [div_le_iff hIR, le_div_iff hs]
  constructor <;> intro <;> linarith

/-- The set of draws in `[0,1]` whose non-split traversal reaches the leaf
holding emitter `i` is an interval (closed or left-open) whose length is the
product of the branch probabilities along the path to `i`. -/
theorem reach_set_interval (P₀ : V3) (t : LTree) :
    posImportances t → (leaves t).Nodup →
    ∀ i ∈ leaves t, ∀ v : ℝ,
      ∃ a b : ℝ, 0 ≤ a ∧ a ≤ b ∧ b ≤ 1 ∧ b - a = leafProb t i ∧
        ({u : ℝ | u ∈ Set.Icc (0 : ℝ) 1 ∧ hits P₀ t i v u} = Set.Icc a b ∨
         {u : ℝ | u ∈ Set.Icc (0 : ℝ) 1 ∧ hits P₀ t i v u} = Set.Ioc a b) := by
  induction t with
  | leaf j =>
    intro _ _ i hi v
    have hij : i = j := by simpa [leaves] using hi
    subst hij
    refine ⟨0, 1, le_refl 0, by norm_num, le_refl 1, by simp [leafProb],
      Or.inl ?_⟩
    ext u
    simp [hits, visits, Set.mem_Icc]
  | node d IL IR l r ihl ihr =>
    intro hpos hnd i hi v
    obtain ⟨hIL, hIR, hpl, hpr⟩ := hpos
    rw [leaves, List.nodup_append] at hnd
    obtain ⟨hndl, hndr, hdisj⟩ := hnd
    have hs : 0 < IL + IR := add_pos hIL hIR
    have hI : ¬ (IL = 0 ∧ IR = 0) := fun hc => absurd hc.1 hIL.ne'
    have hPL0 : 0 < IL / (IL + IR) := div_pos hIL hs
    have hPL1 : IL / (IL + IR) < 1 := by rw [div_lt_one hs]; linarith
    rcases List.mem_append.1 (by simpa [leaves] using hi) with hil | hir
    · -- the emitter sits in the left subtree
      have hnr : i ∉ leaves r := fun hm => hdisj hil hm
      have hnotr : ∀ w, ¬ hits P₀ r i v w := fun w hw => hnr (hits_mem_leaves hw)
      obtain ⟨a, b, ha0, hab, hb1, hba, hS⟩ := ihl hpl hndl i hil v
      have hbP : b * (IL / (IL + IR)) ≤ IL / (IL + IR) := by
        have := mul_le_mul_of_nonneg_right hb1 hPL0.le
        linarith
      refine ⟨a * (IL / (IL + IR)), b * (IL / (IL + IR)),
        mul_nonneg ha0 hPL0.le, mul_le_mul_of_nonneg_right hab hPL0.le,
        le_trans hbP hPL1.le, ?_, ?_⟩
      · simp only [leafProb, leafProb_of_not_mem hnr]
        rw [← hba]; ring
      · rcases hS with hS | hS
        · left
          have hmem := Set.ext_iff.1 hS
          ext u
          simp only [Set.mem_setOf_eq, Set.mem_Icc] at hmem ⊢
          constructor
          · rintro ⟨⟨hu0, hu1⟩, hh⟩
            rcases (hits_node_iff P₀ d l r i v hI u).1 hh with
              ⟨hle, hhl⟩ | ⟨-, hhr⟩
            · have h1 := (hmem (u / (IL / (IL + IR)))).1
                ⟨⟨div_nonneg hu0 hPL0.le, (div_le_one hPL0).2 hle⟩, hhl⟩
              exact ⟨(le_div_iff hPL0).1 h1.1, (div_le_iff hPL0).1 h1.2⟩
            · exact absurd hhr (hnotr _)
          · rintro ⟨hga, hgb⟩
            have hle : u ≤ IL / (IL + IR) := le_trans hgb hbP
            have hu0 : 0 ≤ u := le_trans (mul_nonneg ha0 hPL0.le) hga
            have h2 := (hmem (u / (IL / (IL + IR)))).2
              ⟨(le_div_iff hPL0).2 hga, (div_le_iff hPL0).2 hgb⟩
            exact ⟨⟨hu0, le_trans hle hPL1.le⟩,
              (hits_node_iff P₀ d l r i v hI u).2 (Or.inl ⟨hle, h2.2⟩)⟩
        · right
          have hmem := Set.ext_iff.1 hS
          ext u
          simp only [Set.mem_setOf_eq, Set.mem_Icc, Set.mem_Ioc] at hmem ⊢
          constructor
          · rintro ⟨⟨hu0, hu1⟩, hh⟩
            rcases (hits_node_iff P₀ d l r i v hI u).1 hh with
              ⟨hle, hhl⟩ | ⟨-, hhr⟩
            · have h1 := (hmem (u / (IL / (IL + IR)))).1
                ⟨⟨div_nonneg hu0 hPL0.le, (div_le_one hPL0).2 hle⟩, hhl⟩
              exact ⟨(lt_div_iff hPL0).1 h1.1, (div_le_iff hPL0).1 h1.2⟩
            · exact absurd hhr (hnotr _)
          · rintro ⟨hga, hgb⟩
            have hle : u ≤ IL / (IL + IR) := le_trans hgb hbP
            have hu0 : 0 ≤ u :=
              le_of_lt (lt_of_le_of_lt (mul_nonneg ha0 hPL0.le) hga)
            have h2 := (hmem (u / (IL / (IL + IR)))).2
              ⟨(lt_div_iff hPL0).2 hga, (div_le_iff hPL0).2 hgb⟩
            exact ⟨⟨hu0, le_trans hle hPL1.le⟩,
              (hits_node_iff P₀ d l r i v hI u).2 (Or.inl ⟨hle, h2.2⟩)⟩
    · -- the emitter sits in the right subtree
      have hnl : i ∉ leaves l := fun hm => hdisj hm hir
      have hnotl : ∀ w, ¬ hits P₀ l i v w := fun w hw => hnl (hits_mem_leaves hw)
      obtain ⟨a, b, ha0, hab, hb1, hba, hS⟩ := ihr hpr hndr i hir v
      have hg0_iff : ∀ u : ℝ, 0 ≤ (u * (IL + IR) - IL) / IR ↔
          IL / (IL + IR) ≤ u := by
        intro u
        have := le_g_iff hs hIR 0 u
        rwa [zero_mul, zero_add] at this
      have hg1_iff : ∀ u : ℝ, (u * (IL + IR) - IL) / IR ≤ 1 ↔ u ≤ 1 := by
        intro u
        have hone : ((1 : ℝ) * IR + IL) / (IL + IR) = 1 := by
          rw [one_mul, div_eq_one_iff_eq hs.ne']; ring
        have := g_le_iff hs hIR 1 u
        rwa [hone] at this
      have haP : IL / (IL + IR) ≤ (a * IR + IL) / (IL + IR) :=
        (div_le_div_right hs).2 (by nlinarith [mul_nonneg ha0 hIR.le])
      refine ⟨(a * IR + IL) / (IL + IR), (b * IR + IL) / (IL + IR),
        div_nonneg (add_nonneg (mul_nonneg ha0 hIR.le) hIL.le) hs.le,
        (div_le_div_right hs).2
          (add_le_add_right (mul_le_mul_of_nonneg_right hab hIR.le) IL),
        (div_le_one hs).2 (by nlinarith [mul_le_mul_of_nonneg_right hb1 hIR.le]),
        ?_, ?_⟩
      · simp only [leafProb, leafProb_of_not_mem hnl]
        rw [← hba]
        field_simp
        ring
      · rcases hS with hS | hS
        · -- right-subtree set is a closed interval
          have hmem := Set.ext_iff.1 hS
          by_cases ha : a = 0
          · right
            subst ha
            ext u
            simp only [Set.mem_setOf_eq, Set.mem_Icc, Set.mem_Ioc] at hmem ⊢
            constructor
            · rintro ⟨⟨hu0, hu1⟩, hh⟩
              rcases (hits_node_iff P₀ d l r i v hI u).1 hh with
                ⟨-, hhl⟩ | ⟨hgt, hhr⟩
              · exact absurd hhl (hnotl _)
              · have hlt : IL / (IL + IR) < u := lt_of_not_le hgt
                have h1 := (hmem _).1
                  ⟨⟨(hg0_iff u).2 hlt.le, (hg1_iff u).2 hu1⟩, hhr⟩
                refine ⟨?_, (g_le_iff hs hIR b u).1 h1.2⟩
                rw [zero_mul, zero_add]
                exact hlt
            · rintro ⟨hga, hgb⟩
              rw [zero_mul, zero_add] at hga
              have hu1 : u ≤ 1 := le_trans hgb
                ((div_le_one hs).2
                  (by nlinarith [mul_le_mul_of_nonneg_right hb1 hIR.le]))
              have h2 := (hmem _).2
                ⟨(hg0_iff u).2 hga.le, (g_le_iff hs hIR b u).2 hgb⟩
              exact ⟨⟨by linarith, hu1⟩,
                (hits_node_iff P₀ d l r i v hI u).2
                  (Or.inr ⟨not_le_of_lt hga, h2.2⟩)⟩
          · left
            have ha' : 0 < a := ha0.lt_of_ne (Ne.symm ha)
            have haP' : IL / (IL + IR) < (a * IR + IL) / (IL + IR) :=
              (div_lt_div_right hs).2 (by nlinarith [mul_pos ha' hIR])
            ext u
            simp only [Set.mem_setOf_eq, Set.mem_Icc] at hmem ⊢
            constructor
            · rintro ⟨⟨hu0, hu1⟩, hh⟩
              rcases (hits_node_iff P₀ d l r i v hI u).1 hh with
                ⟨-, hhl⟩ | ⟨hgt, hhr⟩
              · exact absurd hhl (hnotl _)
              · have hlt : IL / (IL + IR) < u := lt_of_not_le hgt
                have h1 := (hmem _).1
                  ⟨⟨(hg0_iff u).2 hlt.le, (hg1_iff u).2 hu1⟩, hhr⟩
                exact ⟨(le_g_iff hs hIR a u).1 h1.1,
                  (g_le_iff hs hIR b u).1 h1.2⟩
            · rintro ⟨hga, hgb⟩
              have hlt : IL / (IL + IR) < u := lt_of_lt_of_le haP' hga
              have hu1 : u ≤ 1 := le_trans hgb
                ((div_le_one hs).2
                  (by nlinarith [mul_le_mul_of_nonneg_right hb1 hIR.le]))
              have h2 := (hmem _).2
                ⟨(le_g_iff hs hIR a u).2 hga, (g_le_iff hs hIR b u).2 hgb⟩
              exact ⟨⟨by linarith [hPL0], hu1⟩,
                (hits_node_iff P₀ d l r i v hI u).2
                  (Or.inr ⟨not_le_of_lt hlt, h2.2⟩)⟩
        · -- right-subtree set is a left-open interval
          right
          have hmem := Set.ext_iff.1 hS
          ext u
          simp only [Set.mem_setOf_eq, Set.mem_Icc, Set.mem_Ioc] at hmem ⊢
          constructor
          · rintro ⟨⟨hu0, hu1⟩, hh⟩
            rcases (hits_node_iff P₀ d l r i v hI u).1 hh with
              ⟨-, hhl⟩ | ⟨hgt, hhr⟩
            · exact absurd hhl (hnotl _)
            · have hlt : IL / (IL + IR) < u := lt_of_not_le hgt
              have h1 := (hmem _).1
                ⟨⟨(hg0_iff u).2 hlt.le, (hg1_iff u).2 hu1⟩, hhr⟩
              exact ⟨(lt_g_iff hs hIR a u).1 h1.1,
                (g_le_iff hs hIR b u).1 h1.2⟩
          · rintro ⟨hga, hgb⟩
            have hlt : IL / (IL + IR) < u := lt_of_le_of_lt haP hga
            have hu1 : u ≤ 1 := le_trans hgb
              ((div_le_one hs).2
                (by nlinarith [mul_le_mul_of_nonneg_right hb1 hIR.le]))
            have h2 := (hmem _).2
              ⟨(lt_g_iff hs hIR a u).2 hga, (g_le_iff hs hIR b u).2 hgb⟩
            exact ⟨⟨by linarith [hPL0], hu1⟩,
              (hits_node_iff P₀ d l r i v hI u).2
                (Or.inr ⟨not_le_of_lt hlt, h2.2⟩)⟩

/-- Claim C1: traversal pdf conservation.  For every light tree with
single-emitter leaves holding distinct emitters and strictly positive child
importances, and the never-split stochastic traversal (threshold 0) started
with pdf scale factor 1, the Lebesgue measure of the draws `u` in `[0,1)`
that reach the leaf holding emitter `i` equals the product of branch
probabilities along the path to `i`, and that product is exactly the
`pdf_factor` delivered to that leaf — so that leaf pdf times `pdf_factor`
is the true marginal density of sampling emitter `i`. -/
theorem traversal_pdf_conservation (P₀ : V3) (t : LTree)
    (hpos : posImportances t) (hnd : (leaves t).Nodup) (i : ℕ)
    (hi : i ∈ leaves t) (v : ℝ) :
    MeasureTheory.volume {u : ℝ | u ∈ Set.Ico (0 : ℝ) 1 ∧ hits P₀ t i v u} =
      ENNReal.ofReal (leafProb t i) ∧
    ∀ u u' p : ℝ, visits 0 P₀ t u v 1 true = [⟨i, u', v, p⟩] →
      p = leafProb t i := by
  constructor
  · obtain ⟨a, b, ha0, hab, hb1, hba, hS⟩ := reach_set_interval P₀ t hpos hnd i hi v
    have hIccvol :
        MeasureTheory.volume {u : ℝ | u ∈ Set.Icc (0 : ℝ) 1 ∧ hits P₀ t i v u} =
          ENNReal.ofReal (b - a) := by
      rcases hS with hS | hS <;> rw [hS]
      · exact Real.volume_Icc
      · exact Real.volume_Ioc
    have hsub1 : {u : ℝ | u ∈ Set.Ico (0 : ℝ) 1 ∧ hits P₀ t i v u} ⊆
        {u : ℝ | u ∈ Set.Icc (0 : ℝ) 1 ∧ hits P₀ t i v u} := by
      rintro u ⟨⟨h0, h1⟩, hh⟩
      exact ⟨⟨h0, h1.le⟩, hh⟩
    have hsub2 : {u : ℝ | u ∈ Set.Icc (0 : ℝ) 1 ∧ hits P₀ t i v u} ⊆
        {u : ℝ | u ∈ Set.Ico (0 : ℝ) 1 ∧ hits P₀ t i v u} ∪ {(1 : ℝ)} := by
      rintro u ⟨⟨h0, h1⟩, hh⟩
      rcases lt_or_eq_of_le h1 with h | h
      · exact Or.inl ⟨⟨h0, h⟩, hh⟩
      · exact Or.inr (by simp [h])
    rw [← hba]
    refine le_antisymm (hIccvol ▸ MeasureTheory.measure_mono hsub1) ?_
    calc ENNReal.ofReal (b - a)
        = MeasureTheory.volume
            {u : ℝ | u ∈ Set.Icc (0 : ℝ) 1 ∧ hits P₀ t i v u} := hIccvol.symm
      _ ≤ MeasureTheory.volume
            ({u : ℝ | u ∈ Set.Ico (0 : ℝ) 1 ∧ hits P₀ t i v u} ∪ {(1 : ℝ)}) :=
          MeasureTheory.measure_mono hsub2
      _ ≤ MeasureTheory.volume
            {u : ℝ | u ∈ Set.Ico (0 : ℝ) 1 ∧ hits P₀ t i v u} +
          MeasureTheory.volume ({(1 : ℝ)} : Set ℝ) :=
          MeasureTheory.measure_union_le _ _
      _ = MeasureTheory.volume
            {u : ℝ | u ∈ Set.Ico (0 : ℝ) 1 ∧ hits P₀ t i v u} := by
          rw [Real.volume_singleton, add_zero]
  · intro u u' p h
    exact visits_pdf_value P₀ t hpos hnd i u v u' v p h

/-- Witness for C1: the two-leaf tree with importances 3 and 1; the draws
reaching leaf 0 have measure `3/4 = leafProb tree31 0`. -/
theorem traversal_pdf_conservation_witness :
    (posImportances tree31 ∧ (leaves tree31).Nodup ∧ 0 ∈ leaves tree31) ∧
    (MeasureTheory.volume
        {u : ℝ | u ∈ Set.Ico (0 : ℝ) 1 ∧ hits ptOrigin tree31 0 0 u} =
        ENNReal.ofReal (leafProb tree31 0) ∧
      ∀ u u' p : ℝ, visits 0 ptOrigin tree31 u 0 1 true = [⟨0, u', 0, p⟩] →
        p = leafProb tree31 0) :=
  ⟨⟨by norm_num [posImportances, tree31], by simp [leaves, tree31],
    by simp [leaves, tree31]⟩,
   traversal_pdf_conservation ptOrigin tree31
     (by norm_num [posImportances, tree31]) (by simp [leaves, tree31]) 0
     (by simp [leaves, tree31]) 0⟩

end Cycles
